import Mathlib

/-
Verification of the hierarchical EMD clustering pipeline of the robopoker
repository against its natural-language specification.

The development is a shallow embedding of the Rust sources:
  - `f32` values are modelled by exact rationals `ℚ`;
  - `u64` abstraction identities are modelled by `Nat`, `i64` by `Int`;
  - `BTreeMap` collections are modelled by association lists with sorted keys
    (`List.Pairwise` on the key column where sortedness matters);
  - a Rust `panic!` / `expect` / failed database query is modelled by `none`
    (respectively `Except.error`), so every partial function of the source
    becomes an `Option`/`Except`-valued Lean function.
-/

namespace Robopoker

/-- Assoc-list lookup returning the value stored under the first matching key.
This models `BTreeMap::get` (keys are unique in a `BTreeMap`, so first match
is the match). A missing key surfaces as `none`. -/
def aget {α : Type} : List (Nat × α) → Nat → Option α
  | [], _ => none
  | (k, v) :: t, k' => if k' = k then some v else aget t k'

/-- Assoc-list in-place update of the first entry holding the key, modelling
`BTreeMap::get_mut` followed by assignment (the key is present by construction
at every use site in the source). -/
def aset {α : Type} : List (Nat × α) → Nat → α → List (Nat × α)
  | [], _, _ => []
  | (k, v) :: t, k', v' => if k' = k then (k', v') :: t else (k, v) :: aset t k' v'

/-- Option-valued map over a list: fails as soon as one element fails.  This
models an iterator pipeline in which producing any element may panic. -/
def omap {α β : Type} (f : α → Option β) : List α → Option (List β)
  | [] => some []
  | a :: t => do pure ((← f a) :: (← omap f t))

/-- Option-valued left fold, modelling a sequential loop whose body may
panic. -/
def ofoldl {α β : Type} (f : β → α → Option β) : β → List α → Option β
  | b, [] => some b
  | b, a :: t => do ofoldl f (← f b a) t

/-- Modelled from the spec: `Histogram` (src/clustering/histogram.rs is not
among the provided sources).  A finite weighted collection over abstraction
identities, stored as an association list `Abstraction identity ↦ weight`.
`domain` returns the keys, `weight` the stored weight (0 when absent), as in
§3 of the spec. -/
abbrev Hist := List (Nat × ℚ)

/-- Keys of the histogram, in storage order (`Histogram::domain`). -/
def Hist.domain (h : Hist) : List Nat := h.map Prod.fst

/-- Stored weight of an abstraction in the histogram (0 when absent). -/
def Hist.weight (h : Hist) (a : Nat) : ℚ := (aget h a).getD 0

/-- A metric is a flat table `Pair key ↦ distance`, as in
`impl Metric for BTreeMap<Pair, f32>` (src/clustering/metric.rs). -/
abbrev Metric := List (Nat × ℚ)

/-- Pair key of two abstraction identities: `Pair::from((a, b))` is the XOR
of the two 64-bit identities (spec §3, src/clustering/xor.rs via its use in
metric.rs and layer.rs). -/
def pairKey (a b : Nat) : Nat := a ^^^ b

/-- `Metric::distance` for `BTreeMap<Pair, f32>` (metric.rs lines 76-79):
look up the XOR pair key; the `expect("precalculated distance")` on a missing
key is a panic, modelled as `none`.  Note the source performs no `x == y`
shortcut and no street check here. -/
def Metric.distance (m : Metric) (x y : Nat) : Option ℚ :=
  aget m (pairKey x y)

/-- Mutable state of the greedy EMD loop in `Metric::emd` (metric.rs lines
27-75): accumulated `energy`, and the three per-key tables `hasmoved`,
`notmoved`, `unfilled`. -/
structure EmdState where
  energy : ℚ
  hasmoved : List (Nat × Bool)
  notmoved : List (Nat × ℚ)
  unfilled : List (Nat × ℚ)

/-- Rust `Iterator::min_by` keeps the earlier element when the comparator
returns `Equal`, so the first minimal element of the list wins.  (The same
holds for rayon's `ParallelIterator::min_by`, whose reduction operator keeps
the left operand unless the right is strictly smaller.) -/
def minByFirst : List (Nat × ℚ) → Option (Nat × ℚ)
  | [] => none
  | p :: t => some (t.foldl (fun q r => if r.2 < q.2 then r else q) p)

/-- One body of the inner `for pile in x.iter()` loop of `Metric::emd`:
skip fully discharged piles, find the nearest hole in the target support
(computing `distance` against every target key, each of which may panic),
then move `min(demand, vacant)` units of mass and update the tables. -/
def pileStep (m : Metric) (ys : List Nat) (st : EmdState) (pile : Nat) :
    Option EmdState := do
  let moved ← aget st.hasmoved pile
  if moved then pure st else
  let ds ← omap (fun mean => (m.distance pile mean).map (fun d => (mean, d))) ys
  let nh ← minByFirst ds
  let hole := nh.1
  let nearest := nh.2
  let demand ← aget st.notmoved pile
  let vacant ← aget st.unfilled hole
  if vacant > 0 then
    let energy := st.energy + nearest * min demand vacant
    if demand > vacant then
      pure { energy := energy
             hasmoved := st.hasmoved
             notmoved := aset st.notmoved pile (demand - vacant)
             unfilled := aset st.unfilled hole 0 }
    else
      pure { energy := energy
             hasmoved := aset st.hasmoved pile true
             notmoved := aset st.notmoved pile 0
             unfilled := aset st.unfilled hole (vacant - demand) }
  else
    pure st

/-- The outer `for _ in 0..y.len()` loop of `Metric::emd`: `rounds` many
passes over the source piles. -/
def emdRounds (m : Metric) (xs ys : List Nat) : Nat → EmdState → Option EmdState
  | 0, st => some st
  | n + 1, st => do emdRounds m xs ys n (← ofoldl (pileStep m ys) st xs)

/-- `Metric::emd` for `BTreeMap<Pair, f32>` (metric.rs lines 27-75): source
demand is uniform `1 / |X|` over the source support, target vacancy is the
stored target weight, and the greedy loop runs `|Y|` rounds.  Any panic
inside (in particular a missing precalculated distance) yields `none`. -/
def Metric.emd (m : Metric) (src tgt : Hist) : Option ℚ :=
  let x := src.domain
  let y := tgt.domain
  let st : EmdState :=
    { energy := 0
      hasmoved := x.map (fun a => (a, false))
      notmoved := x.map (fun a => (a, 1 / (x.length : ℚ)))
      unfilled := y.map (fun a => (a, tgt.weight a)) }
  (emdRounds m x y y.length st).map EmdState.energy

/-- A histogram with a single supported abstraction (identity 1, weight 1). -/
def selfHist : Hist := [(1, 1)]

/-- A metric holding exactly the cross pair of abstractions 1 and 2
(`Pair(1,2) = 1 XOR 2 = 3`), as `Layer::inner_metric` would produce for two
centroids: the self-pair key 0 is never stored. -/
def exMetric : Metric := [(3, 1)]

/-- C2: the claim says `emd(h, h) == 0`; on the code, `Metric::emd` at
`src == dst == selfHist` under `exMetric` panics instead: the nearest-hole
search computes `distance(1, 1)`, i.e. a lookup of the never-stored Pair key
`1 XOR 1 = 0`, and `expect("precalculated distance")` fails.  The evaluation
returns `none` (the panic), not `some 0`. -/
theorem c2_emd_self_lookup_panics :
    Metric.emd exMetric selfHist selfHist = none := by decide

/-- Modelled from the spec: `Street` (src/cards/street.rs is not among the
provided sources).  Totally ordered; `prev` moves toward Preflop and `next`
toward River (spec §3). -/
inductive Street where
  | pref
  | flop
  | turn
  | rive
deriving DecidableEq

/-- Modelled from the spec: `Street::next` moves toward River. -/
def Street.next : Street → Street
  | .pref => .flop
  | .flop => .turn
  | .turn => .rive
  | .rive => .rive

/-- Modelled from the spec: `Street::prev` moves toward Preflop. -/
def Street.prev : Street → Street
  | .pref => .pref
  | .flop => .pref
  | .turn => .flop
  | .rive => .turn

/-- A persisted artifact: the metric table or the encoder (lookup) table of a
street. -/
inductive Artifact where
  | metricOf (s : Street)
  | lookupOf (s : Street)
deriving DecidableEq

/-- The sequence of `Save::save` calls performed by `Layer::cluster`
(layer.rs lines 83-93), in source order: first `self.metric.save(street.next())`,
then `kmeans_initial` and `kmeans_cluster` (which perform no persistence:
they only call sampling, `get_neighbor`, `set_neighbor` and `set_orphaned`),
then either the recomputed Preflop metric save (`street == Pref`) or the
encoder save (`else` branch). -/
def clusterSaves (s : Street) : List Artifact :=
  [Artifact.metricOf s.next]
    ++ ([] : List Artifact)
    ++ (if s = Street.pref then [Artifact.metricOf s] else [Artifact.lookupOf s])

/-- C7 counterexample: clustering Preflop never persists the Preflop encoder:
the `if self.street == Street::Pref` branch of `Layer::cluster` saves the
recomputed metric and skips `self.lookup.save(self.street)`, which lives in
the `else` branch only.  The claim, which asserts the encoder for S is
persisted for every clustered street, fails at S = Preflop. -/
theorem c7_preflop_encoder_not_saved :
    Artifact.lookupOf Street.pref ∉ clusterSaves Street.pref := by decide

/-- C7 (amended): `Layer::cluster` on street S always persists the metric for
S.next(); for S ≠ Preflop it persists the encoder for S; for Preflop it
additionally persists the recomputed Preflop metric after clustering but does
not persist the Preflop encoder. -/
theorem c7_cluster_persists
    (s : Street) :
    Artifact.metricOf s.next ∈ clusterSaves s
      ∧ (s ≠ Street.pref → Artifact.lookupOf s ∈ clusterSaves s)
      ∧ (s = Street.pref →
          Artifact.metricOf Street.pref ∈ clusterSaves s
            ∧ Artifact.lookupOf Street.pref ∉ clusterSaves s) := by
  cases s <;> refine ⟨by decide, fun h => by first | decide | exact absurd rfl h, fun h => by first | decide | exact absurd h (by decide)⟩

/-- C7 witness: the amended statement instantiated at Turn and at Preflop. -/
theorem c7_cluster_persists_witness :
    Artifact.lookupOf Street.turn ∈ clusterSaves Street.turn
      ∧ Artifact.metricOf Street.pref ∈ clusterSaves Street.pref :=
  ⟨(c7_cluster_persists Street.turn).2.1 (by decide),
   ((c7_cluster_persists Street.pref).2.2 rfl).1⟩

/-- Abstraction variants as matched by `Measure for Equity`
(src/clustering/equity.rs): the River `Equity(i8)` bucket variant and the
learned variant.  The `i8` payload is modelled by `Int` (bucket values lie in
[0, 100], so `i8` arithmetic is exact there). -/
inductive EAbstraction where
  | equity (v : Int)
  | learned (s : Street) (i : Nat)
deriving DecidableEq

/-- `Measure::distance` for `Equity` (equity.rs lines 17-26): on two
`Equity` buckets it returns `(x - y).abs() as f32`; any other combination is
`unreachable!`, modelled as `none`. -/
def equityMeasureDistance : EAbstraction → EAbstraction → Option ℚ
  | .equity x, .equity y => some (|((x : ℚ)) - ((y : ℚ))|)
  | _, _ => none

/-- Modelled from the spec: the River equity bucket of a hand equity
probability, "an integer in [0, 100] derived from hand equity percentile"
(spec §3; `Abstraction::from(equity)` in src/clustering/abstraction.rs is not
among the provided sources): the percentile index of `e ∈ [0, 1]` on the
101-level scale. -/
def equityBucket (e : ℚ) : Int := ⌊e * 100⌋

/-- C8 counterexample: the claim says the metric distance between the buckets
for equity 0.9 and equity 0.1 equals 0.8 up to bucketing resolution (1/100).
The code computes the absolute difference of the bucket integers, which is
80, off from 0.8 by far more than the bucketing resolution. -/
theorem c8_equity_distance_is_in_bucket_units :
    equityMeasureDistance (.equity (equityBucket (9 / 10)))
        (.equity (equityBucket (1 / 10))) = some 80
      ∧ ¬ |(80 : ℚ) - 8 / 10| ≤ 1 / 100 := by
  have h9 : equityBucket (9 / 10) = 90 := by
    rw [equityBucket, show (9 : ℚ) / 10 * 100 = ((90 : Int) : ℚ) by norm_num,
      Int.floor_intCast]
  have h1 : equityBucket (1 / 10) = 10 := by
    rw [equityBucket, show (1 : ℚ) / 10 * 100 = ((10 : Int) : ℚ) by norm_num,
      Int.floor_intCast]
  have habs : |(80 : ℚ) - 8 / 10| = 396 / 5 := by
    rw [show (80 : ℚ) - 8 / 10 = 396 / 5 by norm_num,
      abs_of_pos (by norm_num : (0 : ℚ) < 396 / 5)]
  refine ⟨?_, ?_⟩
  · rw [h9, h1]
    show some (|((90 : Int) : ℚ) - ((10 : Int) : ℚ)|) = some 80
    norm_num
  · rw [habs]
    norm_num

/-- C8 (amended): the distance between two equity-bucketed River abstractions
is the absolute difference of their bucket integers, i.e. 100 times the
equity difference: `distance(bucket 0.9, bucket 0.1) = 80 = 100 × (0.9 − 0.1)`,
and in general `distance(Equity x, Equity y) = |x − y|` in bucket units. -/
theorem c8_equity_distance_absolute_difference
    (x y : Int) (hx0 : 0 ≤ x) (hx1 : x ≤ 100) (hy0 : 0 ≤ y) (hy1 : y ≤ 100) :
    equityMeasureDistance (.equity x) (.equity y) = some (|((x : ℚ)) - ((y : ℚ))|)
      ∧ equityMeasureDistance (.equity (equityBucket (9 / 10)))
          (.equity (equityBucket (1 / 10))) = some (100 * |(9 : ℚ) / 10 - 1 / 10|) := by
  have h9 : equityBucket (9 / 10) = 90 := by
    rw [equityBucket, show (9 : ℚ) / 10 * 100 = ((90 : Int) : ℚ) by norm_num,
      Int.floor_intCast]
  have h1 : equityBucket (1 / 10) = 10 := by
    rw [equityBucket, show (1 : ℚ) / 10 * 100 = ((10 : Int) : ℚ) by norm_num,
      Int.floor_intCast]
  refine ⟨rfl, ?_⟩
  rw [h9, h1]
  show some (|((90 : Int) : ℚ) - ((10 : Int) : ℚ)|) = some (100 * |(9 : ℚ) / 10 - 1 / 10|)
  rw [show ((90 : Int) : ℚ) - ((10 : Int) : ℚ) = 80 by norm_num,
    show (9 : ℚ) / 10 - 1 / 10 = 4 / 5 by norm_num,
    abs_of_pos (by norm_num : (0 : ℚ) < 80),
    abs_of_pos (by norm_num : (0 : ℚ) < 4 / 5)]
  norm_num

/-- C8 witness: the amended statement evaluated at the concrete buckets 90
and 10. -/
theorem c8_equity_distance_absolute_difference_witness :
    equityMeasureDistance (.equity 90) (.equity 10) = some (|((90 : Int) : ℚ) - ((10 : Int) : ℚ)|) :=
  (c8_equity_distance_absolute_difference 90 10 (by decide) (by decide)
    (by decide) (by decide)).1

/-- An abstraction as seen by the analysis API: a street tag plus an index.
The 64-bit identity packs the street into the high bits (spec §3; the exact
packing lives in src/clustering/abstraction.rs, not among the provided
sources, and is modelled from the spec with an 8-bit street tag in the top
byte). -/
structure Abstraction where
  street : Street
  index : Nat
deriving DecidableEq

/-- Modelled from the spec: the numeric street tag packed into the identity
high bits. -/
def Street.tag : Street → Nat
  | .pref => 0
  | .flop => 1
  | .turn => 2
  | .rive => 3

/-- Modelled from the spec: the 64-bit identity of an abstraction, street tag
in the high byte. -/
def Abstraction.ident (a : Abstraction) : Nat :=
  a.street.tag * 72057594037927936 + a.index

/-- `API::abs_distance` (src/analysis/api.rs lines 134-148): reject a
cross-street query with an error, short-circuit `a == b` to distance 0, and
otherwise look up the XOR pair key in the metric table; a missing row makes
the database `query_one` fail, modelled as `Except.error`. -/
def absDistance (m : Metric) (a b : Abstraction) : Except Unit ℚ :=
  if a.street ≠ b.street then .error ()
  else if a = b then .ok 0
  else
    match aget m (pairKey a.ident b.ident) with
    | some d => .ok d
    | none => .error ()

/-- C3: `abs_distance` returns 0 when the two abstractions are equal, fails
when they are on different streets, and otherwise answers exactly the
`Pair(a,b)` lookup in the metric (failing when the pair is absent). -/
theorem c3_abs_distance_contract
    (m : Metric) (a b : Abstraction) :
    (a = b → absDistance m a b = .ok 0)
      ∧ (a.street ≠ b.street → absDistance m a b = .error ())
      ∧ (a ≠ b → a.street = b.street →
          absDistance m a b =
            match aget m (pairKey a.ident b.ident) with
            | some d => .ok d
            | none => .error ()) := by
  refine ⟨fun hab => ?_, fun hs => ?_, fun hab hs => ?_⟩
  · subst hab
    simp [absDistance]
  · simp [absDistance, hs]
  · simp [absDistance, hs, hab]

/-- C3 witness: the contract applied at concrete inputs: equal Turn
abstractions give distance 0, and a Flop-vs-Turn query errors. -/
theorem c3_abs_distance_contract_witness :
    absDistance [] (Abstraction.mk Street.turn 7) (Abstraction.mk Street.turn 7) = .ok 0
      ∧ absDistance [] (Abstraction.mk Street.flop 1) (Abstraction.mk Street.turn 1) = .error () :=
  ⟨(c3_abs_distance_contract [] (Abstraction.mk Street.turn 7)
      (Abstraction.mk Street.turn 7)).1 rfl,
   (c3_abs_distance_contract [] (Abstraction.mk Street.flop 1)
      (Abstraction.mk Street.turn 1)).2.1 (by decide)⟩

/-- A `Potential` (src/clustering/potential.rs): a normalized distribution
over abstractions, stored as `BTreeMap<Abstraction, Entropy>` and modelled as
an association list with rational masses (every rational is finite, so the
`assert!(p.is_finite())` of the source never fires in this embedding). -/
abbrev Potential := List (Nat × ℚ)

/-- `Density::density` for `Potential` (potential.rs lines 22-35): look the
abstraction up in the map; `expect("abstraction in potential")` on a missing
key is a panic, modelled as `none`.  No default of 0 is ever produced. -/
def Potential.density (p : Potential) (x : Nat) : Option ℚ :=
  aget p x

/-- `Density::support` for `Potential`: the stored keys. -/
def Potential.supportKeys (p : Potential) : List Nat :=
  p.map Prod.fst

/-- C10: querying a density outside the support panics (returns `none`), and
never produces the value 0 for a missing key; inside the support it returns
a probability actually stored in the map. -/
theorem c10_density_panics_outside_support
    (p : Potential) (x : Nat) :
    (x ∉ p.supportKeys → p.density x = none)
      ∧ (x ∈ p.supportKeys → ∃ v, p.density x = some v ∧ (x, v) ∈ p) := by
  constructor
  · intro hx
    induction p with
    | nil => rfl
    | cons q t ih =>
      rw [Potential.density, aget]
      rw [Potential.supportKeys, List.map_cons, List.mem_cons] at hx
      push_neg at hx
      rw [if_neg hx.1]
      exact ih (by rw [Potential.supportKeys]; exact hx.2)
  · intro hx
    induction p with
    | nil => exact absurd hx (by rw [Potential.supportKeys]; exact List.not_mem_nil x)
    | cons q t ih =>
      rw [Potential.density, aget]
      by_cases hq : x = q.1
      · exact ⟨q.2, by rw [if_pos hq], by rw [hq]; exact List.mem_cons_self _ _⟩
      · rw [Potential.supportKeys, List.map_cons, List.mem_cons] at hx
        rcases hx with hx | hx
        · exact absurd hx hq
        · rcases ih (by rw [Potential.supportKeys]; exact hx) with ⟨v, hv, hmem⟩
          exact ⟨v, by rw [if_neg hq]; exact hv, List.mem_cons_of_mem _ hmem⟩

/-- C10 witness: the density query applied at a concrete potential, once
outside the support (panic) and once inside (stored probability). -/
theorem c10_density_panics_outside_support_witness :
    Potential.density [(4, 1 / 2), (9, 1 / 2)] 5 = none
      ∧ ∃ v, Potential.density [(4, 1 / 2), (9, 1 / 2)] 4 = some v
          ∧ ((4 : Nat), v) ∈ [((4 : Nat), (1 : ℚ) / 2), (9, 1 / 2)] :=
  ⟨(c10_density_panics_outside_support [(4, 1 / 2), (9, 1 / 2)] 5).1 (by decide),
   (c10_density_panics_outside_support [(4, 1 / 2), (9, 1 / 2)] 4).2 (by decide)⟩

/-- A `Lookup` encoder (src/clustering/lookup.rs): a `BTreeMap` from
isomorphism identity to abstraction identity for one street, modelled as an
association list of `i64`-valued identities with ascending keys. -/
abbrev Encoder := List (Int × Int)

/-- Big-endian bytes of a `u16` write (`write_u16::<BE>`). -/
def u16be (n : Nat) : List Nat := [n / 256 % 256, n % 256]

/-- Big-endian bytes of a `u32` write (`write_u32::<BE>`). -/
def u32be (n : Nat) : List Nat :=
  [n / 16777216 % 256, n / 65536 % 256, n / 256 % 256, n % 256]

/-- Big-endian bytes of an unsigned 64-bit value. -/
def natBytes64 (n : Nat) : List Nat :=
  [n / 72057594037927936 % 256, n / 281474976710656 % 256,
   n / 1099511627776 % 256, n / 4294967296 % 256,
   n / 16777216 % 256, n / 65536 % 256, n / 256 % 256, n % 256]

/-- Big-endian bytes of an `i64` write (`write_i64::<BE>`): two's complement
of the signed value. -/
def i64be (v : Int) : List Nat :=
  natBytes64 (v.emod 18446744073709551616).toNat

/-- The 11 magic bytes `b"PGCOPY\n\xFF\r\n\0"` written by `Lookup::save`. -/
def pgcopyMagic : List Nat := [80, 71, 67, 79, 80, 89, 10, 255, 13, 10, 0]

/-- One record written by the loop of `Lookup::save` (lookup.rs lines
112-119): field count 2, each field prefixed with its 8-byte length. -/
def saveRecord (r : Int × Int) : List Nat :=
  u16be 2 ++ u32be 8 ++ i64be r.1 ++ u32be 8 ++ i64be r.2

/-- `Lookup::save` (lookup.rs lines 100-121) as the byte stream it writes:
magic, `u32be(0)` flags, `u32be(0)` extension, the records in `BTreeMap`
iteration order, and the `u16be(0xFFFF)` trailer. -/
def saveBytes (e : Encoder) : List Nat :=
  pgcopyMagic ++ u32be 0 ++ u32be 0 ++ e.flatMap saveRecord ++ u16be 0xFFFF

/-- The byte stream as the claim words it: a literal 19-byte header (magic
plus zero flags plus zero extension), then per record the literal field
count `[0, 2]`, the literal length `[0, 0, 0, 8]` before each of the two
big-endian `i64` payloads, then the literal trailer `[255, 255]`, and
nothing else. -/
def pgcopySpecStream (e : Encoder) : List Nat :=
  [80, 71, 67, 79, 80, 89, 10, 255, 13, 10, 0, 0, 0, 0, 0, 0, 0, 0, 0]
    ++ e.flatMap (fun r => [0, 2] ++ [0, 0, 0, 8] ++ i64be r.1
        ++ [0, 0, 0, 8] ++ i64be r.2)
    ++ [255, 255]

/-- C4: the bytes written by `Lookup::save` are byte-exact to the contracted
PGCOPY format: 19-byte header, the per-entry records with field count 2 and
8-byte length prefixes around each big-endian i64, and the 0xFFFF trailer,
with nothing else in the file. -/
theorem c4_save_is_pgcopy_exact (e : Encoder) :
    saveBytes e = pgcopySpecStream e := by
  rw [saveBytes, pgcopySpecStream]
  rw [show (u16be 0xFFFF : List Nat) = [255, 255] by rfl]
  rw [show (u32be 0 : List Nat) = [0, 0, 0, 0] by rfl]
  rw [show (e.flatMap saveRecord : List Nat)
      = e.flatMap (fun r => [0, 2] ++ [0, 0, 0, 8] ++ i64be r.1
          ++ [0, 0, 0, 8] ++ i64be r.2) from
    List.flatMap_congr (fun r _hr => by rw [saveRecord]; rfl)]
  rfl

/-- `BTreeMap::insert` on the encoder model: place the key in ascending
position, replacing an existing binding. -/
def Encoder.binsert : Encoder → Int → Int → Encoder
  | [], k, v => [(k, v)]
  | (k', v') :: t, k, v =>
    if k < k' then (k, v) :: (k', v') :: t
    else if k = k' then (k, v) :: t
    else (k', v') :: Encoder.binsert t k v

/-- Value of a big-endian byte list (most significant first). -/
def natOfBytes (bs : List Nat) : Nat :=
  bs.foldl (fun n b => n * 256 + b) 0

/-- `read_i64::<BE>`: decode eight big-endian bytes as a two's-complement
signed 64-bit integer. -/
def readI64 (bs : List Nat) : Int :=
  let n := natOfBytes bs
  if n < 9223372036854775808 then (n : Int) else (n : Int) - 18446744073709551616

/-- The record loop of `Lookup::load` (lookup.rs lines 84-97): read a 2-byte
field count (loop ends if fewer than 2 bytes remain, mirroring a failing
`read_exact`); on field count 2 read and discard a `u32` length, read an
`i64` isomorphism, discard a `u32` length, read an `i64` abstraction, insert,
and continue; on any other field count (the 0xFFFF trailer) break.  A
mid-record end of file makes the source panic on `expect`, modelled as
`none`.  The `Nat` argument is fuel; callers pass more fuel than bytes so it
never runs out (each iteration consumes 26 bytes). -/
def parseRecs : Nat → List Nat → Encoder → Option Encoder
  | 0, _, _ => none
  | fuel + 1, b0 :: b1 :: rest, acc =>
    if b0 * 256 + b1 = 2 then
      match rest with
      | _l0 :: _l1 :: _l2 :: _l3 ::
        i0 :: i1 :: i2 :: i3 :: i4 :: i5 :: i6 :: i7 ::
        _m0 :: _m1 :: _m2 :: _m3 ::
        a0 :: a1 :: a2 :: a3 :: a4 :: a5 :: a6 :: a7 :: tail =>
          parseRecs fuel tail
            (acc.binsert (readI64 [i0, i1, i2, i3, i4, i5, i6, i7])
              (readI64 [a0, a1, a2, a3, a4, a5, a6, a7]))
      | _ => none
    else some acc
  | _ + 1, _, acc => some acc

/-- `Lookup::load` (lookup.rs lines 69-99) on a byte stream: seek past the
19-byte header, then run the record loop starting from an empty map. -/
def loadBytes (bs : List Nat) : Option Encoder :=
  parseRecs (bs.length + 1) (bs.drop 19) []

/-- Decoding inverts encoding for every value representable as an `i64`. -/
theorem readI64_i64be (v : Int)
    (h1 : -(9223372036854775808 : Int) ≤ v) (h2 : v < 9223372036854775808) :
    readI64 (i64be v) = v := by
  have hnn : 0 ≤ v.emod 18446744073709551616 := Int.emod_nonneg v (by norm_num)
  have hlt : v.emod 18446744073709551616 < 18446744073709551616 :=
    Int.emod_lt_of_pos v (by norm_num)
  have hnb : ∀ m : Nat, m < 18446744073709551616 → natOfBytes (natBytes64 m) = m := by
    intro m hm
    simp only [natOfBytes, natBytes64, List.foldl]
    omega
  have hvK : v.emod 18446744073709551616 = v
      ∨ v.emod 18446744073709551616 = v + 18446744073709551616 := by
    rcases le_or_lt 0 v with hv | hv
    · exact Or.inl (Int.emod_eq_of_lt hv (by omega))
    · right
      have hh : (v + 18446744073709551616).emod 18446744073709551616
          = v + 18446744073709551616 :=
        Int.emod_eq_of_lt (by omega) (by omega)
      have hm := @Int.add_mul_emod_self_left v 18446744073709551616 1
      rw [mul_one] at hm
      have hm' : (v + 18446744073709551616).emod 18446744073709551616
          = v.emod 18446744073709551616 := hm
      rw [← hm', hh]
  rw [i64be]
  simp only [readI64]
  rw [hnb ((v.emod 18446744073709551616).toNat) (by omega)]
  rcases hvK with h | h
  · rw [h]
    split
    · omega
    · omega
  · rw [h]
    split
    · omega
    · omega

/-- Feeding one saved record to the parser consumes exactly that record and
performs the corresponding insertion. -/
theorem parseRecs_record (f : Nat) (r : Int × Int) (rest : List Nat)
    (acc : Encoder) :
    parseRecs (f + 1) (saveRecord r ++ rest) acc
      = parseRecs f rest (acc.binsert (readI64 (i64be r.1)) (readI64 (i64be r.2))) := by
  simp only [saveRecord, u16be, u32be, i64be, natBytes64, List.cons_append,
    List.nil_append, parseRecs]
  norm_num

/-- Parsing the encoded records followed by the trailer folds the insertions
over the record list. -/
theorem parseRecs_encoded (l : List (Int × Int)) :
    ∀ (fuel : Nat) (acc : Encoder), 26 * l.length + 2 ≤ fuel →
      parseRecs fuel (l.flatMap saveRecord ++ [255, 255]) acc
        = some (l.foldl
            (fun m r => m.binsert (readI64 (i64be r.1)) (readI64 (i64be r.2))) acc) := by
  induction l with
  | nil =>
    intro fuel acc hfuel
    obtain ⟨f, rfl⟩ : ∃ f, fuel = f + 1 := ⟨fuel - 1, by omega⟩
    simp [parseRecs]
  | cons r l ih =>
    intro fuel acc hfuel
    obtain ⟨f, rfl⟩ : ∃ f, fuel = f + 1 := ⟨fuel - 1, by omega⟩
    rw [List.flatMap_cons, List.append_assoc, parseRecs_record, List.foldl_cons]
    exact ih f _ (by simp at hfuel ⊢; omega)

/-- Inserting a key greater than every key of the map appends the binding. -/
theorem binsert_append (acc : Encoder) (k v : Int)
    (h : ∀ p ∈ acc, p.1 < k) :
    acc.binsert k v = acc ++ [(k, v)] := by
  induction acc with
  | nil => rfl
  | cons q t ih =>
    have hq : q.1 < k := h q (List.mem_cons_self _ _)
    rw [show (q :: t : Encoder) = (q.1, q.2) :: t by rfl, Encoder.binsert]
    rw [if_neg (by omega), if_neg (by omega)]
    rw [ih (fun p hp => h p (List.mem_cons_of_mem _ hp))]
    rfl

/-- Folding `BTreeMap::insert` over an ascending record stream whose keys
all exceed the keys already present just appends the stream. -/
theorem foldl_binsert_ascending (l : List (Int × Int)) :
    ∀ (acc : Encoder),
      (∀ p ∈ acc, ∀ q ∈ l, p.1 < q.1) →
      l.Pairwise (fun p q => p.1 < q.1) →
      l.foldl (fun m r => m.binsert r.1 r.2) acc = acc ++ l := by
  induction l with
  | nil => intro acc _ _; simp
  | cons r l ih =>
    intro acc hlt hsorted
    rw [List.foldl_cons,
      binsert_append acc r.1 r.2 (fun p hp => hlt p hp r (List.mem_cons_self _ _))]
    rw [ih (acc ++ [r]) ?_ (List.Pairwise.of_cons hsorted)]
    · simp
    · intro p hp q hq
      rcases List.mem_append.mp hp with hp | hp
      · exact hlt p hp q (List.mem_cons_of_mem _ hq)
      · rw [List.mem_singleton.mp hp]
        exact (List.pairwise_cons.mp hsorted).1 q hq

/-- The length of the record section: 26 bytes per entry. -/
theorem length_flatMap_saveRecord (e : Encoder) :
    (e.flatMap saveRecord).length = 26 * e.length := by
  induction e with
  | nil => rfl
  | cons r t ih =>
    rw [List.flatMap_cons, List.length_append, ih, List.length_cons]
    rw [show (saveRecord r).length = 26 by
      simp [saveRecord, u16be, u32be, i64be, natBytes64]]
    ring

/-- C5: the encoder persistence round-trips: loading the byte stream written
by `Lookup::save` rebuilds a map pointwise equal to the saved one, for every
encoder whose keys are ascending (a `BTreeMap` invariant) and whose
identities are representable as `i64`. -/
theorem c5_load_save_roundtrip (e : Encoder)
    (hsort : e.Pairwise (fun p q => p.1 < q.1))
    (hrange : ∀ p ∈ e,
      -(9223372036854775808 : Int) ≤ p.1 ∧ p.1 < 9223372036854775808
        ∧ -(9223372036854775808 : Int) ≤ p.2 ∧ p.2 < 9223372036854775808) :
    loadBytes (saveBytes e) = some e := by
  have hsplit : saveBytes e
      = ([80, 71, 67, 79, 80, 89, 10, 255, 13, 10, 0, 0, 0, 0, 0, 0, 0, 0, 0] : List Nat)
        ++ (e.flatMap saveRecord ++ [255, 255]) := by
    rw [saveBytes]
    rfl
  rw [loadBytes, hsplit]
  have hdrop : (([80, 71, 67, 79, 80, 89, 10, 255, 13, 10, 0, 0, 0, 0, 0, 0, 0, 0, 0] : List Nat)
      ++ (e.flatMap saveRecord ++ [255, 255])).drop 19
      = e.flatMap saveRecord ++ [255, 255] := rfl
  rw [hdrop]
  rw [parseRecs_encoded e _ [] (by
    rw [List.length_append, List.length_append, length_flatMap_saveRecord]
    simp only [List.length_cons, List.length_nil]
    omega)]
  have hfold : e.foldl
      (fun m r => Encoder.binsert m (readI64 (i64be r.1)) (readI64 (i64be r.2))) ([] : Encoder)
      = e.foldl (fun m r => Encoder.binsert m r.1 r.2) ([] : Encoder) :=
    List.foldl_ext _ _ [] (fun m r hr => by
      obtain ⟨ha, hb, hc, hd⟩ := hrange r hr
      rw [readI64_i64be r.1 ha hb, readI64_i64be r.2 hc hd])
  rw [hfold]
  rw [foldl_binsert_ascending e [] (fun p hp => absurd hp (List.not_mem_nil p)) hsort]
  rw [List.nil_append]

/-- C5 witness: the round-trip evaluated on a concrete two-entry encoder. -/
theorem c5_load_save_roundtrip_witness :
    loadBytes (saveBytes [((1 : Int), (5 : Int)), (2, 7)]) = some [(1, 5), (2, 7)] :=
  c5_load_save_roundtrip [(1, 5), (2, 7)] (by decide) (by decide)

/-- The centroid space `AbstractionSpace` of a layer, as the map
`Abstraction identity ↦ centroid histogram` (the `kmeans` field of `Layer`),
with ascending keys as in a `BTreeMap`. -/
abbrev Centroids := List (Nat × Hist)

/-- The ordered pairs `(a, b)` with `a > b` visited by the nested
`for a in keys / for b in keys / if a > b` loops of `Layer::inner_metric`
(layer.rs lines 111-131), in source iteration order. -/
def innerPairs (ks : List Nat) : List (Nat × Nat) :=
  ks.flatMap (fun a => ks.filterMap (fun b => if b < a then some (a, b) else none))

/-- The body value of one `Layer::inner_metric` loop iteration: fetch the two
centroid histograms (`expect("pre-computed")`) and average the two greedy EMD
directions: `(emd(x, y) + emd(y, x)) / 2`. -/
def centroidDistance (outer : Metric) (km : Centroids) (p : Nat × Nat) :
    Option ℚ := do
  let x ← aget km p.1
  let y ← aget km p.2
  let dxy ← outer.emd x y
  let dyx ← outer.emd y x
  pure ((dxy + dyx) / 2)

/-- `BTreeMap::insert` on the metric model: place the key in ascending
position, replacing an existing binding. -/
def Metric.binsert : Metric → Nat → ℚ → Metric
  | [], k, v => [(k, v)]
  | (k', v') :: t, k, v =>
    if k < k' then (k, v) :: (k', v') :: t
    else if k = k' then (k, v) :: t
    else (k', v') :: Metric.binsert t k v

/-- `Layer::inner_metric` (layer.rs lines 111-131): fold the insertions
`Pair(a, b) ↦ (emd(x, y) + emd(y, x)) / 2` over the ordered centroid pairs,
starting from the empty map; a panic inside any EMD propagates. -/
def innerMetric (outer : Metric) (km : Centroids) : Option Metric :=
  ofoldl
    (fun acc p => (centroidDistance outer km p).map
      (fun d => Metric.binsert acc (pairKey p.1 p.2) d))
    [] (innerPairs (km.map Prod.fst))

/-- Looking up the key just inserted returns the inserted value. -/
theorem aget_binsert_self (l : Metric) (k : Nat) (v : ℚ) :
    aget (Metric.binsert l k v) k = some v := by
  induction l with
  | nil => simp [Metric.binsert, aget]
  | cons q t ih =>
    rw [show (q :: t : Metric) = (q.1, q.2) :: t by rfl, Metric.binsert]
    by_cases h1 : k < q.1
    · rw [if_pos h1, aget, if_pos rfl]
    · rw [if_neg h1]
      by_cases h2 : k = q.1
      · rw [if_pos h2, aget, if_pos rfl]
      · rw [if_neg h2, aget, if_neg h2]
        exact ih

/-- Inserting one key leaves every other key's binding unchanged. -/
theorem aget_binsert_ne (l : Metric) (k k' : Nat) (v : ℚ) (h : k' ≠ k) :
    aget (Metric.binsert l k v) k' = aget l k' := by
  induction l with
  | nil => simp [Metric.binsert, aget, h]
  | cons q t ih =>
    rw [show (q :: t : Metric) = (q.1, q.2) :: t by rfl, Metric.binsert]
    by_cases h1 : k < q.1
    · rw [if_pos h1, aget, if_neg h, aget]
    · rw [if_neg h1]
      by_cases h2 : k = q.1
      · rw [if_pos h2, aget, if_neg h, aget, if_neg (h2 ▸ h)]
      · rw [if_neg h2, aget, aget]
        by_cases h3 : k' = q.1
        · rw [if_pos h3, if_pos h3]
        · rw [if_neg h3, if_neg h3]
          exact ih

/-- Frame property of the insertion fold: keys never inserted keep their
initial binding. -/
theorem ofoldl_binsert_frame (g : Nat × Nat → Option ℚ) (L : List (Nat × Nat)) :
    ∀ (acc m : Metric),
      ofoldl (fun acc p => (g p).map (fun d => Metric.binsert acc (pairKey p.1 p.2) d))
        acc L = some m →
      ∀ k : Nat, (∀ p ∈ L, pairKey p.1 p.2 ≠ k) → aget m k = aget acc k := by
  induction L with
  | nil =>
    intro acc m hres k _
    rw [ofoldl] at hres
    cases hres
    rfl
  | cons q t ih =>
    intro acc m hres k hk
    rw [ofoldl] at hres
    cases hgq : g q with
    | none =>
      rw [hgq] at hres
      exact Option.noConfusion hres
    | some dq =>
      rw [hgq] at hres
      have hres' : ofoldl
          (fun acc p => (g p).map (fun d => Metric.binsert acc (pairKey p.1 p.2) d))
          (Metric.binsert acc (pairKey q.1 q.2) dq) t = some m := hres
      rw [ih _ m hres' k (fun p hp => hk p (List.mem_cons_of_mem _ hp))]
      exact aget_binsert_ne acc _ k dq (fun he => hk q (List.mem_cons_self _ _) he.symm)

/-- Hit property of the insertion fold: when all inserted keys are pairwise
distinct, each visited pair ends up bound to its computed value. -/
theorem ofoldl_binsert_hit (g : Nat × Nat → Option ℚ) (L : List (Nat × Nat)) :
    ∀ (acc m : Metric),
      ofoldl (fun acc p => (g p).map (fun d => Metric.binsert acc (pairKey p.1 p.2) d))
        acc L = some m →
      ∀ p ∈ L, L.Pairwise (fun p q => pairKey p.1 p.2 ≠ pairKey q.1 q.2) →
        ∀ d : ℚ, g p = some d → aget m (pairKey p.1 p.2) = some d := by
  induction L with
  | nil => intro acc m _ p hp; exact absurd hp (List.not_mem_nil p)
  | cons q t ih =>
    intro acc m hres p hp hpair d hd
    rw [ofoldl] at hres
    cases hgq : g q with
    | none =>
      rw [hgq] at hres
      exact Option.noConfusion hres
    | some dq =>
      rw [hgq] at hres
      have hres' : ofoldl
          (fun acc p => (g p).map (fun d => Metric.binsert acc (pairKey p.1 p.2) d))
          (Metric.binsert acc (pairKey q.1 q.2) dq) t = some m := hres
      rcases List.mem_cons.mp hp with hp | hp
      · subst hp
        rw [hgq] at hd
        cases hd
        rw [ofoldl_binsert_frame g t _ m hres' _
          (fun r hr he => (List.pairwise_cons.mp hpair).1 r hr he.symm)]
        exact aget_binsert_self acc _ _
      · exact ih _ m hres' p hp (List.Pairwise.of_cons hpair) d hd

/-- C1: whenever `Layer::inner_metric` completes, the produced metric binds
the Pair key of every ordered centroid pair `a > b` to exactly the
symmetrized greedy EMD `(emd(a.hist, b.hist) + emd(b.hist, a.hist)) / 2` of
their histograms under the outer metric.  The Pair keys of distinct centroid
pairs are assumed distinct (the XOR key layout invariant of spec §9). -/
theorem c1_inner_metric_stores_symmetrized_emd
    (outer : Metric) (km : Centroids) (m : Metric)
    (hres : innerMetric outer km = some m)
    (hinj : (innerPairs (km.map Prod.fst)).Pairwise
      (fun p q => pairKey p.1 p.2 ≠ pairKey q.1 q.2))
    (a b : Nat) (ha : a ∈ km.map Prod.fst) (hb : b ∈ km.map Prod.fst) (hab : b < a)
    (x y : Hist) (hx : aget km a = some x) (hy : aget km b = some y)
    (dxy dyx : ℚ) (hxy : outer.emd x y = some dxy) (hyx : outer.emd y x = some dyx) :
    aget m (pairKey a b) = some ((dxy + dyx) / 2) := by
  have hmem : (a, b) ∈ innerPairs (km.map Prod.fst) := by
    rw [innerPairs, List.mem_flatMap]
    refine ⟨a, ha, ?_⟩
    rw [List.mem_filterMap]
    exact ⟨b, hb, by rw [if_pos hab]⟩
  have hg : centroidDistance outer km (a, b) = some ((dxy + dyx) / 2) := by
    simp [centroidDistance, hx, hy, hxy, hyx]
  exact ofoldl_binsert_hit (centroidDistance outer km) _ _ m hres (a, b) hmem hinj _ hg

/-- C1 witness: two centroids with identities 1 and 2 and single-point
histograms at distance 5 under the outer metric; the stored value under
`Pair(2, 1) = 3` is `(5 + 5) / 2 = 5`. -/
theorem c1_inner_metric_stores_symmetrized_emd_witness :
    aget [((3 : Nat), (5 : ℚ))] (pairKey 2 1) = some ((5 + 5) / 2) := by
  refine c1_inner_metric_stores_symmetrized_emd
    [(1, 5)] [(1, [(10, 1)]), (2, [(11, 1)])] [(3, 5)] ?_ (by decide)
    2 1 (by decide) (by decide) (by decide)
    [(11, 1)] [(10, 1)] (by decide) (by decide)
    5 5 ?_ ?_
  · show innerMetric [(1, 5)] [(1, [(10, 1)]), (2, [(11, 1)])] = some [(3, 5)]
    norm_num [innerMetric, innerPairs, centroidDistance, ofoldl, Metric.emd,
      Hist.domain, Hist.weight, emdRounds, pileStep, omap, minByFirst,
      Metric.distance, pairKey, aget, aset, Metric.binsert, List.filterMap,
      show (11 ^^^ 10) = 1 from by decide, show (10 ^^^ 11) = 1 from by decide,
      show (2 ^^^ 1) = 3 from by decide]
  · show Metric.emd [(1, 5)] [(11, 1)] [(10, 1)] = some 5
    norm_num [Metric.emd, Hist.domain, Hist.weight, emdRounds, ofoldl, pileStep,
      omap, minByFirst, Metric.distance, pairKey, aget, aset,
      show (11 ^^^ 10) = 1 from by decide]
  · show Metric.emd [(1, 5)] [(10, 1)] [(11, 1)] = some 5
    norm_num [Metric.emd, Hist.domain, Hist.weight, emdRounds, ofoldl, pileStep,
      omap, minByFirst, Metric.distance, pairKey, aget, aset,
      show (10 ^^^ 11) = 1 from by decide]

/-- `Layer::nearest` (layer.rs lines 266-276): compute the greedy EMD from
the point histogram to every centroid histogram (rayon evaluates all of
them, so any panic propagates) and take the minimum with `min_by`, whose
reduction keeps the earlier operand on ties. -/
def nearestCentroid (m : Metric) (h : Hist) (km : Centroids) :
    Option (Nat × ℚ) := do
  let ds ← omap (fun p => (m.emd h p.2).map (fun d => (p.1, d))) km
  minByFirst ds

/-- The `min_by` fold reaches a minimum: its result is bounded by the seed
and by every traversed element, and it either is the seed or is a traversed
element strictly below the seed. -/
theorem minFold_spec (t : List (Nat × ℚ)) :
    ∀ q : Nat × ℚ,
      (t.foldl (fun q r => if r.2 < q.2 then r else q) q).2 ≤ q.2
        ∧ (∀ r ∈ t, (t.foldl (fun q r => if r.2 < q.2 then r else q) q).2 ≤ r.2)
        ∧ (t.foldl (fun q r => if r.2 < q.2 then r else q) q = q
            ∨ (t.foldl (fun q r => if r.2 < q.2 then r else q) q ∈ t
                ∧ (t.foldl (fun q r => if r.2 < q.2 then r else q) q).2 < q.2)) := by
  induction t with
  | nil =>
    intro q
    exact ⟨le_refl _, fun r hr => absurd hr (List.not_mem_nil r), Or.inl rfl⟩
  | cons r₀ t ih =>
    intro q
    rw [List.foldl_cons]
    by_cases hlt : r₀.2 < q.2
    · rw [if_pos hlt]
      obtain ⟨h1, h2, h3⟩ := ih r₀
      refine ⟨le_of_lt (lt_of_le_of_lt h1 hlt), ?_, ?_⟩
      · intro r hr
        rcases List.mem_cons.mp hr with hr | hr
        · subst hr; exact h1
        · exact h2 r hr
      · refine Or.inr ⟨?_, lt_of_le_of_lt h1 hlt⟩
        rcases h3 with h3 | h3
        · rw [h3]; exact List.mem_cons_self _ _
        · exact List.mem_cons_of_mem _ h3.1
    · rw [if_neg hlt]
      obtain ⟨h1, h2, h3⟩ := ih q
      refine ⟨h1, ?_, ?_⟩
      · intro r hr
        rcases List.mem_cons.mp hr with hr | hr
        · subst hr; exact le_trans h1 (not_lt.mp hlt)
        · exact h2 r hr
      · rcases h3 with h3 | h3
        · exact Or.inl h3
        · exact Or.inr ⟨List.mem_cons_of_mem _ h3.1, h3.2⟩

/-- Tie-break of the `min_by` fold: under strictly ascending keys, every
element tied with the minimum has a key at least the minimum's key, i.e. the
first minimal element (the smallest key among minima) wins. -/
theorem minFold_tie (t : List (Nat × ℚ)) :
    ∀ q : Nat × ℚ, ((q :: t).map Prod.fst).Pairwise (fun x y => x < y) →
      ∀ r ∈ q :: t, r.2 = (t.foldl (fun q r => if r.2 < q.2 then r else q) q).2 →
        (t.foldl (fun q r => if r.2 < q.2 then r else q) q).1 ≤ r.1 := by
  induction t with
  | nil =>
    intro q _ r hr _
    rcases List.mem_cons.mp hr with hr | hr
    · subst hr; exact le_refl _
    · exact absurd hr (List.not_mem_nil r)
  | cons r₀ t ih =>
    intro q hsort r hr htie
    simp only [List.map_cons] at hsort
    rw [List.pairwise_cons] at hsort
    obtain ⟨hq, hsort⟩ := hsort
    rw [List.pairwise_cons] at hsort
    obtain ⟨hr₀, hrest⟩ := hsort
    rw [List.foldl_cons] at htie ⊢
    by_cases hlt : r₀.2 < q.2
    · rw [if_pos hlt] at htie ⊢
      have hsort' : ((r₀ :: t).map Prod.fst).Pairwise (fun x y => x < y) := by
        rw [List.map_cons, List.pairwise_cons]
        exact ⟨hr₀, hrest⟩
      obtain ⟨h1, _, _⟩ := minFold_spec t r₀
      rcases List.mem_cons.mp hr with hr | hr
      · subst hr
        exact absurd htie (ne_of_gt (lt_of_le_of_lt h1 hlt))
      · exact ih r₀ hsort' r hr htie
    · rw [if_neg hlt] at htie ⊢
      have hsort' : ((q :: t).map Prod.fst).Pairwise (fun x y => x < y) := by
        rw [List.map_cons, List.pairwise_cons]
        exact ⟨fun y hy => hq y (List.mem_cons_of_mem _ hy), hrest⟩
      rcases List.mem_cons.mp hr with hr | hr
      · subst hr
        exact ih _ hsort' _ (List.mem_cons_self _ _) htie
      rcases List.mem_cons.mp hr with hr | hr
      · subst hr
        obtain ⟨h1, _, h3⟩ := minFold_spec t q
        rcases h3 with h3 | h3
        · rw [h3]
          exact le_of_lt (hq _ (List.mem_cons_self _ _))
        · have hcon := h3.2
          rw [← htie] at hcon
          exact absurd hcon hlt
      · exact ih q hsort' r (List.mem_cons_of_mem _ hr) htie

/-- Destructor for a successful `omap` over a cons cell. -/
theorem omap_cons_inv {α β : Type} (f : α → Option β) (a : α) (t : List α)
    (res : List β) (hres : omap f (a :: t) = some res) :
    ∃ b bs, f a = some b ∧ omap f t = some bs ∧ res = b :: bs := by
  cases hfa : f a with
  | none =>
    rw [omap, hfa] at hres
    exact Option.noConfusion hres
  | some b =>
    cases hft : omap f t with
    | none =>
      rw [omap, hfa, hft] at hres
      exact Option.noConfusion hres
    | some bs =>
      rw [omap, hfa, hft] at hres
      have hres' : some (b :: bs) = some res := hres
      cases hres'
      exact ⟨b, bs, rfl, rfl, rfl⟩

/-- Every element produced by a successful `omap` comes from some input
element. -/
theorem omap_mem_inv {α β : Type} (f : α → Option β) :
    ∀ (l : List α) (res : List β), omap f l = some res →
      ∀ b ∈ res, ∃ a ∈ l, f a = some b := by
  intro l
  induction l with
  | nil =>
    intro res hres b hb
    rw [omap] at hres
    cases hres
    exact absurd hb (List.not_mem_nil b)
  | cons a t ih =>
    intro res hres b hb
    obtain ⟨b0, bs, hfa, hft, rfl⟩ := omap_cons_inv f a t res hres
    rcases List.mem_cons.mp hb with hb | hb
    · exact ⟨a, List.mem_cons_self _ _, hb ▸ hfa⟩
    · obtain ⟨a', ha', hfa'⟩ := ih bs hft b hb
      exact ⟨a', List.mem_cons_of_mem _ ha', hfa'⟩

/-- Inversion of the per-centroid distance computation of `nearest`. -/
theorem emdPair_inv (m : Metric) (h : Hist) (p : Nat × Hist) (q : Nat × ℚ)
    (hq : (m.emd h p.2).map (fun d => (p.1, d)) = some q) :
    q.1 = p.1 ∧ m.emd h p.2 = some q.2 := by
  cases he : m.emd h p.2 with
  | none =>
    rw [he] at hq
    exact Option.noConfusion hq
  | some d =>
    rw [he] at hq
    have hq' : some (p.1, d) = some q := hq
    cases hq'
    exact ⟨rfl, rfl⟩

/-- The distance list computed by `nearest` carries over the centroid keys in
order. -/
theorem omap_emd_keys (m : Metric) (h : Hist) :
    ∀ (km : Centroids) (ds : List (Nat × ℚ)),
      omap (fun p => (m.emd h p.2).map (fun d => (p.1, d))) km = some ds →
      ds.map Prod.fst = km.map Prod.fst := by
  intro km
  induction km with
  | nil =>
    intro ds hds
    rw [omap] at hds
    cases hds
    rfl
  | cons p t ih =>
    intro ds hds
    obtain ⟨b, bs, hfp, hft, rfl⟩ := omap_cons_inv _ p t ds hds
    rw [List.map_cons, List.map_cons, (emdPair_inv m h p b hfp).1, ih bs hft]

/-- Each centroid whose EMD to the point is defined appears, with that EMD,
in the distance list computed by `nearest`. -/
theorem omap_emd_mem (m : Metric) (h : Hist) :
    ∀ (km : Centroids) (ds : List (Nat × ℚ)),
      omap (fun p => (m.emd h p.2).map (fun d => (p.1, d))) km = some ds →
      ∀ (b : Nat) (c : Hist) (db : ℚ), (b, c) ∈ km → m.emd h c = some db →
        (b, db) ∈ ds := by
  intro km
  induction km with
  | nil =>
    intro ds _ b c db hmem _
    exact absurd hmem (List.not_mem_nil (b, c))
  | cons p t ih =>
    intro ds hds b c db hmem hemd
    obtain ⟨b0, bs, hfp, hft, rfl⟩ := omap_cons_inv _ p t ds hds
    rcases List.mem_cons.mp hmem with hmem | hmem
    · obtain ⟨hb1, hb2⟩ := emdPair_inv m h p b0 hfp
      have hp1 : p.1 = b := by rw [← hmem]
      have hp2 : p.2 = c := by rw [← hmem]
      rw [hp2, hemd] at hb2
      have hb0 : b0 = (b, db) := by
        cases hb2
        exact Prod.ext (by rw [hb1, hp1]) rfl
      rw [hb0]
      exact List.mem_cons_self _ _
    · exact List.mem_cons_of_mem _ (ih bs hft b c db hmem hemd)

/-- C6: when `Layer::nearest` succeeds on a point histogram, the returned
distance is the minimum EMD over all centroids, the returned abstraction
actually attains it, and among all centroids attaining a distance equal to
the minimum the one with the smallest identity is chosen (`min_by` keeps the
earliest of equally minimal elements and the `BTreeMap` iterates keys in
ascending order). -/
theorem c6_nearest_tie_breaks_to_smaller
    (m : Metric) (h : Hist) (km : Centroids) (a : Nat) (d : ℚ)
    (hsort : (km.map Prod.fst).Pairwise (fun x y => x < y))
    (hn : nearestCentroid m h km = some (a, d)) :
    (∃ c, (a, c) ∈ km ∧ m.emd h c = some d)
      ∧ ∀ (b : Nat) (c : Hist) (db : ℚ), (b, c) ∈ km → m.emd h c = some db →
          d ≤ db ∧ (db = d → a ≤ b) := by
  cases hds : omap (fun p => (m.emd h p.2).map (fun dd => (p.1, dd))) km with
  | none =>
    rw [nearestCentroid, hds] at hn
    exact Option.noConfusion hn
  | some ds =>
    rw [nearestCentroid, hds] at hn
    have hmin : minByFirst ds = some (a, d) := hn
    cases ds with
    | nil => exact Option.noConfusion hmin
    | cons p t =>
      rw [minByFirst] at hmin
      have hs : t.foldl (fun q r => if r.2 < q.2 then r else q) p = (a, d) :=
        Option.some_inj.mp hmin
      obtain ⟨h1, h2, h3⟩ := minFold_spec t p
      have hsmem : (a, d) ∈ p :: t := by
        rw [← hs]
        rcases h3 with h3 | h3
        · rw [h3]; exact List.mem_cons_self _ _
        · exact List.mem_cons_of_mem _ h3.1
      constructor
      · obtain ⟨pk, hpk, hfpk⟩ := omap_mem_inv _ km (p :: t) hds (a, d) hsmem
        obtain ⟨hk1, hk2⟩ := emdPair_inv m h pk (a, d) hfpk
        obtain ⟨pk1, pk2⟩ := pk
        have ha1 : a = pk1 := hk1
        subst ha1
        exact ⟨pk2, hpk, hk2⟩
      · intro b c db hmem hemd
        have hbd : (b, db) ∈ p :: t := omap_emd_mem m h km (p :: t) hds b c db hmem hemd
        have hfd : (t.foldl (fun q r => if r.2 < q.2 then r else q) p).2 = d := by
          rw [hs]
        constructor
        · rcases List.mem_cons.mp hbd with hbd | hbd
          · have hdb : db = p.2 := by rw [← hbd]
            rw [← hfd, hdb]
            exact h1
          · rw [← hfd]
            exact h2 _ hbd
        · intro htie
          have hkeys : ((p :: t).map Prod.fst).Pairwise (fun x y => x < y) := by
            rw [omap_emd_keys m h km (p :: t) hds]
            exact hsort
          have hled := minFold_tie t p hkeys (b, db) hbd (by rw [hs]; exact htie)
          rw [hs] at hled
          exact hled

/-- C6 witness: two centroids with identities 1 and 2 whose histograms are
identical, so both are at EMD 0 from the point; `nearest` returns centroid 1,
and the theorem yields the tie-break inequality 1 ≤ 2. -/
theorem c6_nearest_tie_breaks_to_smaller_witness :
    (0 : ℚ) ≤ 0 ∧ ((0 : ℚ) = 0 → (1 : Nat) ≤ 2) := by
  refine (c6_nearest_tie_breaks_to_smaller [(0, 0)] [(10, 1)]
    [(1, [(10, 1)]), (2, [(10, 1)])] 1 0 (by decide) ?_).2 2 [(10, 1)] 0
    (by decide) ?_
  · norm_num [nearestCentroid, omap, minByFirst, Metric.emd, Hist.domain,
      Hist.weight, emdRounds, ofoldl, pileStep, Metric.distance, pairKey,
      aget, aset, show (10 ^^^ 10) = 0 from by decide]
  · norm_num [Metric.emd, Hist.domain, Hist.weight, emdRounds, ofoldl,
      pileStep, omap, minByFirst, Metric.distance, pairKey, aget, aset,
      show (10 ^^^ 10) = 0 from by decide]

/-- Modelled from the spec: `Histogram::support` returns the keys carrying
non-zero weight (spec §3; histogram.rs is not among the provided sources). -/
def Hist.support (h : Hist) : List Nat :=
  (h.filter (fun p => decide (p.2 ≠ 0))).map Prod.fst

/-- Modelled from the spec: add a single weighted key into a histogram with
ascending keys, merging weights on an existing key (spec §4.E update phase:
histograms aggregate by weighted sum). -/
def Hist.add1 : Hist → Nat → ℚ → Hist
  | [], k, w => [(k, w)]
  | (a, v) :: t, k, w =>
    if k < a then (k, w) :: (a, v) :: t
    else if k = a then (a, v + w) :: t
    else (a, v) :: Hist.add1 t k w

/-- Modelled from the spec: pointwise sum of two histograms over the union of
their supports (`AbstractionSpace::absorb` adds a histogram into a centroid;
datasets.rs is not among the provided sources). -/
def Hist.add (x y : Hist) : Hist :=
  y.foldl (fun acc p => acc.add1 p.1 p.2) x

/-- Modelled from the spec: `AbstractionSpace::orphans` lists the centroids
whose histogram has empty support ("any centroid with empty support",
spec §4.E; datasets.rs is not among the provided sources). -/
def orphans (km : Centroids) : List Nat :=
  (km.filter (fun p => p.2.support.isEmpty)).map Prod.fst

/-- Modelled from the spec: `AbstractionSpace::absorb` adds a histogram into
the named centroid, leaving the others untouched. -/
def absorb (km : Centroids) (a : Nat) (h : Hist) : Centroids :=
  km.map (fun p => if p.1 = a then (p.1, p.2.add h) else p)

/-- `Layer::sample_uniform` (layer.rs lines 236-243): choose a point
histogram; the `expect` on an empty point space is a panic, modelled by the
out-of-range lookup returning `none`. -/
def sampleUniform (points : List Hist) (r : Nat) : Option Hist :=
  points.get? (r % points.length)

/-- `Layer::set_orphaned` (layer.rs lines 222-233): for each orphaned
centroid, draw a uniformly random point histogram and absorb it into that
centroid.  The `choice` oracle models the successive `thread_rng` draws,
keyed by the orphan being reseeded. -/
def setOrphaned (choice : Nat → Nat) (points : List Hist) (km : Centroids) :
    Option Centroids :=
  ofoldl (fun acc a => (sampleUniform points (choice a)).map (fun h => absorb acc a h))
    km (orphans km)

/-- Support membership unfolded: a key is in the support exactly when it
carries a non-zero weight. -/
theorem support_mem (h : Hist) (j : Nat) :
    j ∈ h.support ↔ ∃ v : ℚ, (j, v) ∈ h ∧ v ≠ 0 := by
  rw [Hist.support]
  constructor
  · intro hj
    obtain ⟨p, hp, hpj⟩ := List.mem_map.mp hj
    obtain ⟨hpm, hpd⟩ := List.mem_filter.mp hp
    refine ⟨p.2, ?_, of_decide_eq_true hpd⟩
    rw [← hpj]
    exact hpm
  · rintro ⟨v, hv, hne⟩
    exact List.mem_map.mpr ⟨(j, v), List.mem_filter.mpr ⟨hv, decide_eq_true hne⟩, rfl⟩

/-- Adding a non-negative weight keeps all weights non-negative. -/
theorem add1_nonneg (x : Hist) (k : Nat) (w : ℚ)
    (hx : ∀ p ∈ x, 0 ≤ p.2) (hw : 0 ≤ w) :
    ∀ p ∈ x.add1 k w, 0 ≤ p.2 := by
  induction x with
  | nil =>
    intro p hp
    rw [Hist.add1] at hp
    rcases List.mem_singleton.mp hp with rfl
    exact hw
  | cons q t ih =>
    intro p hp
    rw [show (q :: t : Hist) = (q.1, q.2) :: t by rfl, Hist.add1] at hp
    by_cases h1 : k < q.1
    · rw [if_pos h1] at hp
      rcases List.mem_cons.mp hp with rfl | hp
      · exact hw
      · exact hx p (by simpa using hp)
    · rw [if_neg h1] at hp
      by_cases h2 : k = q.1
      · rw [if_pos h2] at hp
        rcases List.mem_cons.mp hp with rfl | hp
        · exact add_nonneg (hx q (List.mem_cons_self _ _)) hw
        · exact hx p (List.mem_cons_of_mem _ hp)
      · rw [if_neg h2] at hp
        rcases List.mem_cons.mp hp with rfl | hp
        · exact hx q (List.mem_cons_self _ _)
        · exact ih (fun r hr => hx r (List.mem_cons_of_mem _ hr)) p hp

/-- Adding a non-negative weight never removes a key from the support (all
weights being non-negative, no cancellation can occur). -/
theorem add1_support_preserve (x : Hist) (k j : Nat) (w : ℚ)
    (hx : ∀ p ∈ x, 0 ≤ p.2) (hw : 0 ≤ w) (hj : j ∈ x.support) :
    j ∈ (x.add1 k w).support := by
  induction x with
  | nil =>
    rw [support_mem] at hj
    obtain ⟨v, hv, _⟩ := hj
    exact absurd hv (List.not_mem_nil _)
  | cons q t ih =>
    rw [support_mem] at hj
    obtain ⟨v, hv, hne⟩ := hj
    rw [support_mem]
    rw [show (q :: t : Hist) = (q.1, q.2) :: t by rfl, Hist.add1]
    by_cases h1 : k < q.1
    · rw [if_pos h1]
      exact ⟨v, List.mem_cons_of_mem _ (by simpa using hv), hne⟩
    · rw [if_neg h1]
      by_cases h2 : k = q.1
      · rw [if_pos h2]
        rcases List.mem_cons.mp hv with hq | hv'
        · have hjq : j = q.1 := congrArg Prod.fst hq
          have hvq : v = q.2 := congrArg Prod.snd hq
          have hq2 : 0 ≤ q.2 := hx q (List.mem_cons_self _ _)
          have hvpos : 0 < q.2 := lt_of_le_of_ne hq2 (Ne.symm (hvq ▸ hne))
          refine ⟨q.2 + w, ?_, ne_of_gt (add_pos_of_pos_of_nonneg hvpos hw)⟩
          rw [hjq]
          exact List.mem_cons_self _ _
        · exact ⟨v, List.mem_cons_of_mem _ hv', hne⟩
      · rw [if_neg h2]
        rcases List.mem_cons.mp hv with hq | hv'
        · exact ⟨v, List.mem_cons.mpr (Or.inl hq), hne⟩
        · have hjt : j ∈ Hist.support t := (support_mem t j).mpr ⟨v, hv', hne⟩
          have := ih (fun r hr => hx r (List.mem_cons_of_mem _ hr)) hjt
          rw [support_mem] at this
          obtain ⟨v', hv'', hne'⟩ := this
          exact ⟨v', List.mem_cons_of_mem _ hv'', hne'⟩

/-- Adding a strictly positive weight puts its key into the support. -/
theorem add1_support_self (x : Hist) (k : Nat) (w : ℚ)
    (hx : ∀ p ∈ x, 0 ≤ p.2) (hw : 0 < w) :
    k ∈ (x.add1 k w).support := by
  induction x with
  | nil =>
    rw [Hist.add1, support_mem]
    exact ⟨w, List.mem_singleton.mpr rfl, ne_of_gt hw⟩
  | cons q t ih =>
    rw [show (q :: t : Hist) = (q.1, q.2) :: t by rfl, Hist.add1]
    by_cases h1 : k < q.1
    · rw [if_pos h1, support_mem]
      exact ⟨w, List.mem_cons_self _ _, ne_of_gt hw⟩
    · rw [if_neg h1]
      by_cases h2 : k = q.1
      · rw [if_pos h2, support_mem]
        refine ⟨q.2 + w, ?_, ?_⟩
        · rw [h2]; exact List.mem_cons_self _ _
        · exact ne_of_gt (add_pos_of_nonneg_of_pos (hx q (List.mem_cons_self _ _)) hw)
      · rw [if_neg h2, support_mem]
        have hkt := ih (fun r hr => hx r (List.mem_cons_of_mem _ hr))
        rw [support_mem] at hkt
        obtain ⟨v, hv, hne⟩ := hkt
        exact ⟨v, List.mem_cons_of_mem _ hv, hne⟩

/-- Histogram addition keeps all weights non-negative. -/
theorem add_nonneg_all (y : Hist) :
    ∀ (x : Hist), (∀ p ∈ x, 0 ≤ p.2) → (∀ p ∈ y, 0 ≤ p.2) →
      ∀ p ∈ x.add y, 0 ≤ p.2 := by
  induction y with
  | nil => intro x hx _ p hp; exact hx p hp
  | cons q t ih =>
    intro x hx hy p hp
    rw [Hist.add, List.foldl_cons] at hp
    exact ih (x.add1 q.1 q.2)
      (add1_nonneg x q.1 q.2 hx (hy q (List.mem_cons_self _ _)))
      (fun r hr => hy r (List.mem_cons_of_mem _ hr)) p hp

/-- Adding a histogram with a strictly positive entry, or adding anything to
a histogram that already has non-empty support, yields non-empty support. -/
theorem add_support_nonempty (y : Hist) :
    ∀ (x : Hist), (∀ p ∈ x, 0 ≤ p.2) → (∀ p ∈ y, 0 ≤ p.2) →
      (x.support ≠ [] ∨ ∃ p ∈ y, 0 < (p : Nat × ℚ).2) →
      (x.add y).support ≠ [] := by
  induction y with
  | nil =>
    intro x hx _ hcase
    rcases hcase with hcase | hcase
    · exact hcase
    · obtain ⟨p, hp, _⟩ := hcase
      exact absurd hp (List.not_mem_nil p)
  | cons q t ih =>
    intro x hx hy hcase
    rw [Hist.add, List.foldl_cons]
    have hq2 : 0 ≤ q.2 := hy q (List.mem_cons_self _ _)
    have hx1 : ∀ p ∈ x.add1 q.1 q.2, 0 ≤ p.2 := add1_nonneg x q.1 q.2 hx hq2
    have hy' : ∀ p ∈ t, 0 ≤ (p : Nat × ℚ).2 := fun r hr => hy r (List.mem_cons_of_mem _ hr)
    rcases hcase with hcase | hcase
    · obtain ⟨j, hj⟩ := List.exists_mem_of_ne_nil _ hcase
      have hj' : j ∈ (x.add1 q.1 q.2).support :=
        add1_support_preserve x q.1 j q.2 hx hq2 hj
      exact ih (x.add1 q.1 q.2) hx1 hy' (Or.inl (List.ne_nil_of_mem hj'))
    · obtain ⟨p, hp, hppos⟩ := hcase
      rcases List.mem_cons.mp hp with rfl | hp
      · have hq : p.1 ∈ (x.add1 p.1 p.2).support := add1_support_self x p.1 p.2 hx hppos
        exact ih (x.add1 p.1 p.2) hx1 hy' (Or.inl (List.ne_nil_of_mem hq))
      · exact ih (x.add1 q.1 q.2) hx1 hy' (Or.inr ⟨p, hp, hppos⟩)

/-- A within-bounds positional lookup succeeds and yields a member. -/
theorem get?_mem_aux : ∀ (l : List Hist) (n : Nat), n < l.length →
    ∃ h, l.get? n = some h ∧ h ∈ l := by
  intro l
  induction l with
  | nil => intro n hn; exact absurd hn (by simp)
  | cons h t ih =>
    intro n hn
    cases n with
    | zero => exact ⟨h, rfl, List.mem_cons_self _ _⟩
    | succ n =>
      obtain ⟨h', hg, hm⟩ := ih n (by simpa using hn)
      exact ⟨h', hg, List.mem_cons_of_mem _ hm⟩

/-- The repair fold: provided the point space is non-empty and every point
histogram is non-negative with non-empty support, the fold succeeds and every
centroid whose key is not among the still-unprocessed orphans ends with
non-empty support. -/
theorem setOrphaned_aux (choice : Nat → Nat) (points : List Hist)
    (hpts : points ≠ [])
    (hph : ∀ h ∈ points, (∀ p ∈ h, 0 ≤ (p : Nat × ℚ).2) ∧ h.support ≠ []) :
    ∀ (L : List Nat) (acc : Centroids),
      (∀ p ∈ acc, ∀ q ∈ p.2, 0 ≤ (q : Nat × ℚ).2) →
      (∀ p ∈ acc, p.2.support = [] → p.1 ∈ L) →
      ∃ km', ofoldl
          (fun acc a => (sampleUniform points (choice a)).map (fun h => absorb acc a h))
          acc L = some km'
        ∧ ∀ p ∈ km', p.2.support ≠ [] := by
  intro L
  induction L with
  | nil =>
    intro acc hnn horph
    refine ⟨acc, rfl, fun p hp hsup => ?_⟩
    exact absurd (horph p hp hsup) (List.not_mem_nil _)
  | cons a L ih =>
    intro acc hnn horph
    have hlen : 0 < points.length := List.length_pos.mpr hpts
    obtain ⟨h, hget, hmem⟩ :=
      get?_mem_aux points (choice a % points.length) (Nat.mod_lt _ hlen)
    obtain ⟨hhnn, hhsup⟩ := hph h hmem
    have hhpos : ∃ p ∈ h, 0 < (p : Nat × ℚ).2 := by
      obtain ⟨j, hj⟩ := List.exists_mem_of_ne_nil _ hhsup
      obtain ⟨v, hv, hne⟩ := (support_mem h j).mp hj
      exact ⟨(j, v), hv, lt_of_le_of_ne (hhnn (j, v) hv) (Ne.symm hne)⟩
    have hnn' : ∀ p ∈ absorb acc a h, ∀ q ∈ p.2, 0 ≤ (q : Nat × ℚ).2 := by
      intro p hp q hq
      obtain ⟨p0, hp0, hp0e⟩ := List.mem_map.mp hp
      by_cases hpa : p0.1 = a
      · rw [if_pos hpa] at hp0e
        rw [← hp0e] at hq
        exact add_nonneg_all h p0.2 (fun r hr => hnn p0 hp0 r hr) hhnn q hq
      · rw [if_neg hpa] at hp0e
        rw [← hp0e] at hq
        exact hnn p0 hp0 q hq
    have horph' : ∀ p ∈ absorb acc a h, p.2.support = [] → p.1 ∈ L := by
      intro p hp hsup
      obtain ⟨p0, hp0, hp0e⟩ := List.mem_map.mp hp
      by_cases hpa : p0.1 = a
      · rw [if_pos hpa] at hp0e
        have : (p0.2.add h).support ≠ [] :=
          add_support_nonempty h p0.2 (fun r hr => hnn p0 hp0 r hr) hhnn
            (Or.inr hhpos)
        rw [← hp0e] at hsup
        exact absurd hsup this
      · rw [if_neg hpa] at hp0e
        rw [← hp0e] at hsup
        have := horph p0 hp0 hsup
        rcases List.mem_cons.mp this with heq | hmem'
        · exact absurd heq hpa
        · rw [← hp0e]
          exact hmem'
    obtain ⟨km', hkm', hall⟩ := ih (absorb acc a h) hnn' horph'
    refine ⟨km', ?_, hall⟩
    rw [ofoldl, sampleUniform, hget]
    exact hkm'

/-- C9: under the modelled repair loop of `Layer::set_orphaned`, whenever
every point histogram is non-negative with non-empty support and the point
space is non-empty, the repair succeeds and afterwards no centroid has empty
support: every orphan was reseeded from some point histogram, and the orphan
set of the resulting centroid space is empty. -/
theorem c9_orphan_repair_empties_orphans (choice : Nat → Nat) (points : List Hist)
    (km : Centroids)
    (hpts : points ≠ [])
    (hph : ∀ h ∈ points, (∀ p ∈ h, 0 ≤ (p : Nat × ℚ).2) ∧ h.support ≠ [])
    (hkm : ∀ p ∈ km, ∀ q ∈ p.2, 0 ≤ (q : Nat × ℚ).2) :
    ∃ km', setOrphaned choice points km = some km'
      ∧ (∀ p ∈ km', p.2.support ≠ []) ∧ orphans km' = [] := by
  have horph : ∀ p ∈ km, p.2.support = [] → p.1 ∈ orphans km := by
    intro p hp hsup
    exact List.mem_map.mpr ⟨p, List.mem_filter.mpr ⟨hp, by rw [hsup]; rfl⟩, rfl⟩
  obtain ⟨km', hres, hall⟩ := setOrphaned_aux choice points hpts hph (orphans km) km hkm horph
  refine ⟨km', hres, hall, ?_⟩
  rw [orphans]
  have hfilter : km'.filter (fun p => p.2.support.isEmpty) = [] := by
    rw [List.filter_eq_nil_iff]
    intro p hp
    cases hsup : p.2.support with
    | nil => exact absurd hsup (hall p hp)
    | cons j t => simp
  rw [hfilter]
  rfl

/-- C9 witness: one orphaned centroid (key 1, empty histogram) and one live
centroid; after repair from the single point histogram, no centroid has
empty support and the orphan set is empty. -/
theorem c9_orphan_repair_empties_orphans_witness :
    ∃ km', setOrphaned (fun _ => 0) [[(5, 1)]] [(1, []), (2, [(7, 2)])] = some km'
      ∧ (∀ p ∈ km', p.2.support ≠ []) ∧ orphans km' = [] :=
  c9_orphan_repair_empties_orphans (fun _ => 0) [[(5, 1)]] [(1, []), (2, [(7, 2)])]
    (by decide) (by decide) (by decide)

end Robopoker
